import Mathlib

/-!
# B-spline evaluation and construction engine: a verification development

This file embeds the B-spline engine described by the specification of the
repository (knot vectors, Cox-de Boor basis functions, point evaluation with
derivative order and extrapolation, derivative/antiderivative transforms,
definite integration, construction validation, and the legacy tuple view),
together with the naive reference evaluator found in the repository's test
suite, and proves or refutes the behavioural claims relating them.

Real numbers are embedded as rationals, so every equality below is exact;
the floating-point tolerances of the original tests (1e-12, 1e-14) are
subsumed by exact equality.  Coefficients take values in an arbitrary
rational vector space V, which covers coefficient arrays carrying trailing
dimensions (the spec's vector/tensor-valued splines).
-/

namespace BSplineSpec

-- The Batteries rational arithmetic definitions are marked irreducible,
-- which blocks evaluation of concrete witnesses by the decide tactic;
-- restore their reducibility for this file.
attribute [local semireducible] Rat.mul Rat.add Rat.sub Rat.inv Rat.ofScientific

/-- Knot access: t[i], with an irrelevant default for out-of-range indices
(never reached under the length side conditions carried by the lemmas). -/
def knot (t : List ℚ) (i : ℕ) : ℚ := t.getD i 0

/-- The spline object (t, c, k): immutable knot vector, coefficient array
(values in a rational vector space V, covering trailing dimensions),
and degree. -/
structure BSpline (V : Type) where
  t : List ℚ
  c : List V
  k : ℕ

/-- n = len(t) - k - 1, the number of basis functions / coefficients. -/
def ncoef (t : List ℚ) (k : ℕ) : ℕ := t.length - k - 1

/-- Knot vector nondecreasing (data-model invariant). -/
def Nondecr (t : List ℚ) : Prop :=
  ∀ i, i < t.length - 1 → knot t i ≤ knot t (i + 1)

/-- Knot multiplicity at most k+1 (data-model invariant: no k+2 coincident
knots), stated as: every window of k+2 consecutive knots spans a positive
length. -/
def MultOK (t : List ℚ) (k : ℕ) : Prop :=
  ∀ i, i < t.length - (k + 1) → knot t i < knot t (i + k + 1)

/-- Interval location, scanning downward from m: the greatest index l in
[k, m] with t[l] <= x, and k if there is none.  Modelled from the spec
(4.2): locate x in the knot vector to find left, the greatest index with
t[left] <= x, clamped to [k, n-1]; the caller passes m = n-1.  (The spec
performs this lookup by binary search; on a nondecreasing knot vector this
scan returns the same clamped greatest index.) -/
def findLeftFrom (t : List ℚ) (x : ℚ) (k : ℕ) : ℕ → ℕ
  | 0 => k
  | m + 1 =>
    if m + 1 ≤ k then k
    else if knot t (m + 1) ≤ x then m + 1
    else findLeftFrom t x k m

/-- The interval index used by evaluation: greatest l in [k, n-1] with
t[l] <= x (else k).  Points left of the basic interval get l = k and points
right of it get l = n-1, i.e. the nearest valid interval, whose polynomial
piece is used for extrapolation (spec 4.2). -/
def findLeft (t : List ℚ) (k : ℕ) (x : ℚ) : ℕ :=
  findLeftFrom t x k (ncoef t k - 1)

/-- Modelled from the spec (4.1, the basis-function evaluator, absent from
the sources): the polynomial piece, on the knot interval with index left,
of the Cox-de Boor basis function B_i of the given degree, via the
triangular recurrence
  B_i0(x) = indicator of the designated interval left,
  B_ik(x) = (x - t_i)/(t_ik - t_i) B_ik1(x)
            + (t_ik1 - x)/(t_ik1 - t_i1) B_i1k1(x),
where any blending weight with a zero denominator (repeated knot)
contributes zero rather than dividing by zero.  For x in
[t[left], t[left+1]) these are the values B_ik(x); elsewhere they are the
polynomial continuation of that piece, which is what evaluation uses when
extrapolating (spec 4.1 edge cases / 4.2). -/
def Bp (t : List ℚ) (left : ℕ) : ℕ → ℕ → ℚ → ℚ
  | 0, i, _ => if i = left then 1 else 0
  | k + 1, i, x =>
      (if knot t (i + k + 1) = knot t i then 0
        else (x - knot t i) / (knot t (i + k + 1) - knot t i)) * Bp t left k i x
      + (if knot t (i + k + 2) = knot t (i + 1) then 0
        else (knot t (i + k + 2) - x) / (knot t (i + k + 2) - knot t (i + 1)))
          * Bp t left k (i + 1) x

/-- Modelled from the spec (4.2, nu = 0 case): locate left, then contract
the k+1 basis values with the k+1 relevant coefficients
sum_j c[left-k+j] * B_lkjk(x).  This is the extrapolating evaluator (the
default extrapolate=True behaviour); the polynomial continuation of the
nearest valid interval is used outside the basic interval. -/
def evalBase {V : Type} [AddCommGroup V] [Module ℚ V] (b : BSpline V) (x : ℚ) : V :=
  ∑ j ∈ Finset.range (b.k + 1),
    Bp b.t (findLeft b.t b.k x) b.k (findLeft b.t b.k x - b.k + j) x •
      b.c.getD (findLeft b.t b.k x - b.k + j) 0

/-- Modelled from the spec (4.3): the derivative transform.  New degree
k-1, knot vector t[1:-1], coefficients k*(c[i+1]-c[i])/(t[i+k+1]-t[i+1]),
with the convention that a zero-length denominator yields a zero
coefficient. -/
def derivative {V : Type} [AddCommGroup V] [Module ℚ V] (b : BSpline V) : BSpline V where
  t := (b.t.drop 1).dropLast
  c := (List.range (ncoef b.t b.k - 1)).map fun i =>
    if knot b.t (i + b.k + 1) = knot b.t (i + 1) then 0
    else ((b.k : ℚ) / (knot b.t (i + b.k + 1) - knot b.t (i + 1))) •
      (b.c.getD (i + 1) 0 - b.c.getD i 0)
  k := b.k - 1

/-- Cumulative-sum antiderivative coefficients (spec 4.3): a_0 = 0 and
a_i1 = a_i + (t[i+k+1] - t[i])/(k+1) * c[i]; the integration constant 0
makes antiderivative-then-derivative recover the original spline. -/
def acoef {V : Type} [AddCommGroup V] [Module ℚ V] (b : BSpline V) : ℕ → V
  | 0 => 0
  | i + 1 =>
    acoef b i + ((knot b.t (i + b.k + 1) - knot b.t i) / (b.k + 1 : ℚ)) • b.c.getD i 0

/-- Modelled from the spec (4.3): the antiderivative transform.  Degree
k+1, knot vector padded symmetrically (one copy of the end knot on each
side), coefficients by cumulative-sum integration. -/
def antiderivative {V : Type} [AddCommGroup V] [Module ℚ V] (b : BSpline V) : BSpline V where
  t := knot b.t 0 :: b.t ++ [knot b.t (b.t.length - 1)]
  c := (List.range (ncoef b.t b.k + 1)).map (acoef b)
  k := b.k + 1

/-- Modelled from the spec (4.2): public evaluation spline(x, nu) with the
default extrapolation.  For nu > 0 the derivative transform (4.3) is
applied symbolically, reducing the degree, rather than differentiating
basis values; a degree-0 spline differentiates to the zero function by
convention (4.3), so derivatives of order above the degree vanish. -/
def evaluate {V : Type} [AddCommGroup V] [Module ℚ V] (b : BSpline V) (x : ℚ) : ℕ → V
  | 0 => evalBase b x
  | nu + 1 => if b.k = 0 then 0 else evaluate (derivative b) x nu

/-- Modelled from the spec (4.3): integrate(a, b, extrapolate) as
F(b) - F(a) with F the antiderivative's evaluation; when extrapolate is
false the bounds are clamped to the basic interval, replacing outside
contributions with zero. -/
def integrate {V : Type} [AddCommGroup V] [Module ℚ V]
    (b : BSpline V) (lo hi : ℚ) (extrapolate : Bool) : V :=
  if extrapolate then
    evalBase (antiderivative b) hi - evalBase (antiderivative b) lo
  else
    evalBase (antiderivative b)
        (max (knot b.t b.k) (min hi (knot b.t (ncoef b.t b.k)))) -
      evalBase (antiderivative b)
        (max (knot b.t b.k) (min lo (knot b.t (ncoef b.t b.k))))

/-- Modelled from the spec (6, legacy API; the basis_element classmethod is
absent from the sources): the spline representing the single basis function
B(x | t): pad len(t)-2 extra knots on each side and use a unit coefficient
in position k, zeros elsewhere. -/
def basisElement (tin : List ℚ) : BSpline ℚ where
  t := List.replicate (tin.length - 2) (knot tin 0 - 1) ++ tin ++
    List.replicate (tin.length - 2) (knot tin (tin.length - 1) + 1)
  c := List.replicate (tin.length - 2) 0 ++ 1 :: List.replicate (tin.length - 2) 0
  k := tin.length - 2

/-- Raw numeric entries handed to the construction API: finite rationals,
IEEE non-finite values, or complex entries.  Modelled from the spec (4.4
step 1): construction receives raw entries which may be non-finite or
complex and must reject them.  (Multi-dimensional knot input is excluded
at the type level: the embedded input is a flat sequence.) -/
inductive Ext where
  | fin : ℚ → Ext
  | nan : Ext
  | pinf : Ext
  | ninf : Ext
  | cplx : ℚ → ℚ → Ext
deriving DecidableEq

/-- Whether a raw entry is a finite real number. -/
def Ext.isFin : Ext → Bool
  | .fin _ => true
  | _ => false

/-- The rational value of a raw entry (0 for non-finite entries, which are
rejected before this is ever used). -/
def Ext.val : Ext → ℚ
  | .fin q => q
  | _ => 0

/-- Whether an Except value is an error. -/
def isErr {ε α : Type} : Except ε α → Bool
  | .error _ => true
  | .ok _ => false

/-- Modelled from the spec (4.4, construction validation, absent from the
sources): validate in order, failing fast: (1) knots are finite real
numbers; (2) knots nondecreasing; (3) enough knots and coefficients for
the declared degree; (4) degree a non-negative integer; (5) basic interval
of positive measure.  On failure a descriptive error is returned and no
spline object is created. -/
def mkBSpline {V : Type} (tIn : List Ext) (c : List V) (kIn : ℚ) :
    Except String (BSpline V) :=
  if ∀ e ∈ tIn, e.isFin = true then
    if ∀ i, i < tIn.length - 1 →
        knot (tIn.map Ext.val) i ≤ knot (tIn.map Ext.val) (i + 1) then
      if 2 * (kIn + 1) ≤ (tIn.length : ℚ) ∧
          kIn + 1 ≤ (tIn.length : ℚ) - kIn - 1 ∧
          (tIn.length : ℚ) - kIn - 1 ≤ (c.length : ℚ) then
        if kIn.den = 1 ∧ 0 ≤ kIn then
          if knot (tIn.map Ext.val) kIn.num.toNat <
              knot (tIn.map Ext.val) (tIn.length - kIn.num.toNat - 1) then
            .ok ⟨tIn.map Ext.val, c, kIn.num.toNat⟩
          else .error "Basic interval cannot have measure zero"
        else .error "Spline degree must be a non-negative integer"
      else .error "Knots, coefficients and degree are inconsistent"
    else .error "Knot vector must be nondecreasing"
  else .error "Knot vector must be a 1-D sequence of finite real numbers"

/-- One component of the legacy (t, c, k) tuple view. -/
inductive TckItem (V : Type) where
  | knots : List ℚ → TckItem V
  | coeffs : List V → TckItem V
  | degree : ℕ → TckItem V

/-- Modelled from the spec (6, legacy tuple view): indexing the 3-tuple
(t, c, k) with Python sequence semantics: indices 0, 1, 2 and their
negative equivalents -3, -2, -1; any other index is an out-of-range
error. -/
def tupleGet {V : Type} (b : BSpline V) (i : ℤ) : Except String (TckItem V) :=
  if (if i < 0 then i + 3 else i) = 0 then .ok (.knots b.t)
  else if (if i < 0 then i + 3 else i) = 1 then .ok (.coeffs b.c)
  else if (if i < 0 then i + 3 else i) = 2 then .ok (.degree b.k)
  else .error "index out of range"

/-- Translated from src/scipy/interpolate/tests/test_bsplines.py, _naive_B:
the naive recursive Cox-de Boor basis function B(x; t[i],..,t[i+k+1]),
with zero contributions for zero denominators. -/
def naiveB (x : ℚ) : ℕ → ℕ → List ℚ → ℚ
  | 0, i, t => if knot t i ≤ x ∧ x < knot t (i + 1) then 1 else 0
  | k + 1, i, t =>
      (if knot t (i + k + 1) = knot t i then 0
        else (x - knot t i) / (knot t (i + k + 1) - knot t i) * naiveB x k i t)
      + (if knot t (i + k + 2) = knot t (i + 1) then 0
        else (knot t (i + k + 2) - x) / (knot t (i + k + 2) - knot t (i + 1))
          * naiveB x k (i + 1) t)

/-- np.searchsorted(t, x) with side left on a sorted list: the first index
whose entry is >= x (the length if none), i.e. the left insertion point. -/
def searchsorted (t : List ℚ) (x : ℚ) : ℕ := t.findIdx fun v => x ≤ v

/-- Translated from src/scipy/interpolate/tests/test_bsplines.py,
_naive_eval: locate i (= k when x equals t[k], otherwise
searchsorted(t,x) - 1), check the asserted preconditions (returning none
when an assert fails, as the Python helper raises), and return
sum_j c[i-j] * B(x, k, i-j, t). -/
def naiveEval {V : Type} [AddCommGroup V] [Module ℚ V]
    (x : ℚ) (t : List ℚ) (c : List V) (k : ℕ) : Option V :=
  if (k : ℤ) ≤ (if x = knot t k then (k : ℤ) else (searchsorted t x : ℤ) - 1) ∧
      (if x = knot t k then (k : ℤ) else (searchsorted t x : ℤ) - 1) + k < t.length ∧
      knot t (if x = knot t k then k else searchsorted t x - 1) ≤ x ∧
      x ≤ knot t ((if x = knot t k then k else searchsorted t x - 1) + 1) then
    some (∑ j ∈ Finset.range (k + 1),
      naiveB x k ((if x = knot t k then k else searchsorted t x - 1) - j) t •
        c.getD ((if x = knot t k then k else searchsorted t x - 1) - j) 0)
  else none

/-- Modelled from the spec (8, concrete scenario; the BPoly reference
object is absent from the sources): evaluation of the Bernstein-basis
polynomial on [0, 1] with the given coefficients,
sum_i c_i * choose(n, i) * x^i * (1-x)^(n-i) with n = len(c) - 1. -/
def bernsteinEval (c : List ℚ) (x : ℚ) : ℚ :=
  ∑ i ∈ Finset.range c.length,
    c.getD i 0 * (Nat.choose (c.length - 1) i : ℚ) * x ^ i * (1 - x) ^ (c.length - 1 - i)

instance (t : List ℚ) : Decidable (Nondecr t) :=
  inferInstanceAs (Decidable (∀ i, i < t.length - 1 → knot t i ≤ knot t (i + 1)))

instance (t : List ℚ) (k : ℕ) : Decidable (MultOK t k) :=
  inferInstanceAs (Decidable (∀ i, i < t.length - (k + 1) → knot t i < knot t (i + k + 1)))

/-! ## Basic lemmas about knots, interval location and list access -/

theorem knot_mono {t : List ℚ} (ht : Nondecr t) :
    ∀ {i j : ℕ}, i ≤ j → j < t.length → knot t i ≤ knot t j := by
  intro i j
  induction j with
  | zero => intro hij _; interval_cases i; exact le_refl _
  | succ j ih =>
      intro hij hj
      rcases Nat.lt_or_ge i (j + 1) with h | h
      · exact le_trans (ih (by omega) (by omega)) (ht j (by omega))
      · have : i = j + 1 := by omega
        subst this; exact le_refl _

theorem findLeftFrom_ge (t : List ℚ) (x : ℚ) (k : ℕ) :
    ∀ m, k ≤ findLeftFrom t x k m := by
  intro m
  induction m with
  | zero => exact le_refl k
  | succ m ih =>
      simp only [findLeftFrom]
      split
      · exact le_refl k
      · split
        · omega
        · exact ih

theorem findLeftFrom_le (t : List ℚ) (x : ℚ) (k : ℕ) :
    ∀ m, findLeftFrom t x k m ≤ max k m := by
  intro m
  induction m with
  | zero => simp [findLeftFrom]
  | succ m ih =>
      simp only [findLeftFrom]
      split
      · exact le_max_left _ _
      · split
        · exact le_max_right _ _
        · exact le_trans ih (by omega)

theorem findLeftFrom_knot_le (t : List ℚ) (x : ℚ) (k : ℕ) (hk : knot t k ≤ x) :
    ∀ m, knot t (findLeftFrom t x k m) ≤ x := by
  intro m
  induction m with
  | zero => exact hk
  | succ m ih =>
      simp only [findLeftFrom]
      split
      · exact hk
      · split
        · assumption
        · exact ih

theorem findLeftFrom_gt (t : List ℚ) (x : ℚ) (k : ℕ) :
    ∀ m j, findLeftFrom t x k m < j → j ≤ m → x < knot t j := by
  intro m
  induction m with
  | zero => intro j h1 h2; omega
  | succ m ih =>
      intro j h1 h2
      by_cases hc1 : m + 1 ≤ k
      · simp only [findLeftFrom, if_pos hc1] at h1; omega
      · by_cases hc2 : knot t (m + 1) ≤ x
        · simp only [findLeftFrom, if_neg hc1, if_pos hc2] at h1; omega
        · simp only [findLeftFrom, if_neg hc1, if_neg hc2] at h1
          rcases Nat.lt_or_ge j (m + 1) with h | h
          · exact ih j h1 (by omega)
          · have : j = m + 1 := by omega
            subst this; exact lt_of_not_le hc2

theorem findLeftFrom_eq_top (t : List ℚ) (x : ℚ) (k m : ℕ)
    (hkm : k ≤ m) (hknot : knot t m ≤ x) :
    findLeftFrom t x k m = m := by
  cases m with
  | zero => simp only [findLeftFrom]; omega
  | succ m =>
      rw [findLeftFrom]
      by_cases h1 : m + 1 ≤ k
      · rw [if_pos h1]; omega
      · rw [if_neg h1, if_pos hknot]

theorem searchsorted_cons (a : ℚ) (l : List ℚ) (x : ℚ) :
    searchsorted (a :: l) x = if x ≤ a then 0 else searchsorted l x + 1 := by
  rw [searchsorted, List.findIdx_cons, searchsorted]
  by_cases ha : x ≤ a <;> simp [ha]

theorem searchsorted_spec1 (x : ℚ) :
    ∀ (t : List ℚ) m, m < searchsorted t x → knot t m < x := by
  intro t
  induction t with
  | nil => intro m h; simp [searchsorted, List.findIdx_nil] at h
  | cons a l ih =>
      intro m h
      rw [searchsorted_cons] at h
      by_cases ha : x ≤ a
      · simp [ha] at h
      · rw [if_neg ha] at h
        match m with
        | 0 => exact lt_of_not_le ha
        | m' + 1 =>
            simpa [knot, List.getD_cons_succ] using ih m' (by omega)

theorem searchsorted_spec2 (x : ℚ) :
    ∀ t : List ℚ, searchsorted t x < t.length → x ≤ knot t (searchsorted t x) := by
  intro t
  induction t with
  | nil => intro h; simp [searchsorted, List.findIdx_nil] at h
  | cons a l ih =>
      intro h
      rw [searchsorted_cons] at h ⊢
      by_cases ha : x ≤ a
      · simp [ha, knot]
      · rw [if_neg ha] at h ⊢
        simp only [List.length_cons] at h
        simpa [knot, List.getD_cons_succ] using ih (by omega)

theorem searchsorted_le_length (t : List ℚ) (x : ℚ) :
    searchsorted t x ≤ t.length :=
  List.findIdx_le_length _

theorem getD_map_range {α : Type} (f : ℕ → α) (d : α) {m j : ℕ} (h : j < m) :
    ((List.range m).map f).getD j d = f j := by
  rw [List.getD_eq_getElem?_getD, List.getElem?_map, List.getElem?_range h]
  rfl

/-! ## Support lemmas for the naive basis functions

naiveB x k i t vanishes to the left of t[i] (and at t[i] itself unless the
knot there has multiplicity k+1) and from t[i+k+1] rightward. -/

theorem naiveB_zero_right {t : List ℚ} {x : ℚ} (ht : Nondecr t) :
    ∀ k i, i + k + 1 < t.length → x < knot t i → naiveB x k i t = 0 := by
  intro k
  induction k with
  | zero =>
      intro i hi hx
      rw [naiveB, if_neg]
      rintro ⟨h1, -⟩
      exact absurd h1 (not_le.mpr hx)
  | succ k ih =>
      intro i hi hx
      have h1 : naiveB x k i t = 0 := ih i (by omega) hx
      have h2 : naiveB x k (i + 1) t = 0 :=
        ih (i + 1) (by omega) (lt_of_lt_of_le hx (ht i (by omega)))
      simp [naiveB, h1, h2]

theorem naiveB_zero_left {t : List ℚ} {x : ℚ} (ht : Nondecr t) :
    ∀ k i, i + k + 1 < t.length → knot t (i + k + 1) ≤ x → naiveB x k i t = 0 := by
  intro k
  induction k with
  | zero =>
      intro i hi hx
      rw [naiveB, if_neg]
      rintro ⟨-, h2⟩
      exact absurd hx (not_le.mpr h2)
  | succ k ih =>
      intro i hi hx
      have h1 : naiveB x k i t = 0 :=
        ih i (by omega) (le_trans (ht (i + k + 1) (by omega)) hx)
      have h2 : naiveB x k (i + 1) t = 0 :=
        ih (i + 1) (by omega)
          (by rw [show i + 1 + k + 1 = i + (k + 1) + 1 from by omega]; exact hx)
      simp [naiveB, h1, h2]

theorem naiveB_zero_edge {t : List ℚ} {x : ℚ} (ht : Nondecr t) :
    ∀ k i, i + k + 1 < t.length → x ≤ knot t i → x < knot t (i + k) →
      naiveB x k i t = 0 := by
  intro k
  induction k with
  | zero =>
      intro i hi _ hx2
      rw [naiveB, if_neg]
      rintro ⟨h1, -⟩
      exact absurd h1 (not_le.mpr hx2)
  | succ k ih =>
      intro i hi hx1 hx2
      have h2 : naiveB x k (i + 1) t = 0 := by
        refine ih (i + 1) (by omega) (le_trans hx1 (ht i (by omega))) ?_
        rw [show i + 1 + k = i + k + 1 from by omega]
        exact hx2
      rcases lt_or_eq_of_le hx1 with h | h
      · have h1 : naiveB x k i t = 0 := naiveB_zero_right ht k i (by omega) h
        simp [naiveB, h1, h2]
      · rw [naiveB, h2, mul_zero]
        rw [show x - knot t i = 0 from by rw [h]; ring]
        simp

/-! ## The production basis values agree with the naive recursion on the
designated interval, and vanish outside the index window -/

theorem Bp_zero_outside (t : List ℚ) (left : ℕ) (x : ℚ) :
    ∀ k i, i + k < left ∨ left < i → Bp t left k i x = 0 := by
  intro k
  induction k with
  | zero =>
      intro i hi
      rw [Bp, if_neg]
      omega
  | succ k ih =>
      intro i hi
      have h1 : Bp t left k i x = 0 := ih i (by omega)
      have h2 : Bp t left k (i + 1) x = 0 := ih (i + 1) (by omega)
      simp [Bp, h1, h2]

theorem Bp_eq_naiveB {t : List ℚ} {x : ℚ} {left : ℕ} (ht : Nondecr t)
    (hl1 : knot t left ≤ x) (hl2 : x < knot t (left + 1)) (hlen : left + 1 < t.length) :
    ∀ k i, i + k + 1 < t.length → Bp t left k i x = naiveB x k i t := by
  intro k
  induction k with
  | zero =>
      intro i hi
      rw [Bp, naiveB]
      by_cases h : i = left
      · rw [if_pos h, if_pos (by subst h; exact ⟨hl1, hl2⟩)]
      · rw [if_neg h, if_neg]
        rintro ⟨h1, h2⟩
        rcases Nat.lt_or_ge i left with hc | hc
        · have : knot t (i + 1) ≤ knot t left := knot_mono ht hc (by omega)
          exact absurd (lt_of_lt_of_le h2 (le_trans this hl1)) (lt_irrefl x)
        · have hc2 : left + 1 ≤ i := by omega
          have : knot t (left + 1) ≤ knot t i := knot_mono ht hc2 (by omega)
          exact absurd (lt_of_lt_of_le hl2 (le_trans this h1)) (lt_irrefl x)
  | succ k ih =>
      intro i hi
      rw [Bp, naiveB, ih i (by omega), ih (i + 1) (by omega)]
      by_cases g1 : knot t (i + k + 1) = knot t i <;>
        by_cases g2 : knot t (i + k + 2) = knot t (i + 1) <;>
          simp [g1, g2, mul_comm]

/-! ## Window sums versus the full sum over all n basis functions -/

theorem sum_desc_eq_asc {V : Type} [AddCommGroup V] (f : ℕ → V) (i k : ℕ) (hik : k ≤ i) :
    ∑ j ∈ Finset.range (k + 1), f (i - j) = ∑ j ∈ Finset.range (k + 1), f (i - k + j) := by
  have h := Finset.sum_range_reflect (fun j => f (i - j)) (k + 1)
  rw [← h]
  refine Finset.sum_congr rfl ?_
  intro j hj
  simp only [Finset.mem_range] at hj
  congr 1
  omega

theorem window_eq_full {V : Type} [AddCommGroup V] [Module ℚ V]
    (c : List V) (B : ℕ → ℚ) (n w k : ℕ) (hw1 : k ≤ w) (hw2 : w < n)
    (hlo : ∀ m, m + k < w → B m = 0) (hhi : ∀ m, w < m → m < n → B m = 0) :
    ∑ j ∈ Finset.range (k + 1), B (w - k + j) • c.getD (w - k + j) 0
      = ∑ m ∈ Finset.range n, B m • c.getD m 0 := by
  have h1 : ∑ m ∈ Finset.Ico (w - k) (w + 1), B m • c.getD m 0
      = ∑ m ∈ Finset.range n, B m • c.getD m 0 := by
    refine Finset.sum_subset ?_ ?_
    · intro m hm
      simp only [Finset.mem_Ico] at hm
      simp only [Finset.mem_range]
      omega
    · intro m hm1 hm2
      simp only [Finset.mem_range] at hm1
      simp only [Finset.mem_Ico, not_and_or, not_le, not_lt] at hm2
      rcases hm2 with h | h
      · rw [hlo m (by omega), zero_smul]
      · rw [hhi m (by omega) hm1, zero_smul]
  rw [← h1, Finset.sum_Ico_eq_sum_range, show w + 1 - (w - k) = k + 1 from by omega]

/-- The production evaluator (nu = 0) equals the full naive sum over all n
basis functions, for x in the half-open basic interval. -/
theorem evalBase_eq_full {V : Type} [AddCommGroup V] [Module ℚ V]
    (t : List ℚ) (c : List V) (k : ℕ) (x : ℚ) (ht : Nondecr t)
    (hn : k + 1 ≤ ncoef t k) (hx1 : knot t k ≤ x) (hx2 : x < knot t (ncoef t k)) :
    evalBase ⟨t, c, k⟩ x
      = ∑ m ∈ Finset.range (ncoef t k), naiveB x k m t • c.getD m 0 := by
  have hnd : ncoef t k = t.length - k - 1 := rfl
  have hlen : 2 * k + 2 ≤ t.length := by omega
  have hL1 : k ≤ findLeftFrom t x k (ncoef t k - 1) := findLeftFrom_ge t x k _
  have hL2 : findLeftFrom t x k (ncoef t k - 1) ≤ ncoef t k - 1 :=
    le_trans (findLeftFrom_le t x k _) (max_le (by omega) (le_refl _))
  have hL3 : knot t (findLeftFrom t x k (ncoef t k - 1)) ≤ x :=
    findLeftFrom_knot_le t x k hx1 _
  have hL4 : x < knot t (findLeftFrom t x k (ncoef t k - 1) + 1) := by
    rcases Nat.lt_or_ge (findLeftFrom t x k (ncoef t k - 1)) (ncoef t k - 1) with h | h
    · exact findLeftFrom_gt t x k (ncoef t k - 1) _ (by omega) (by omega)
    · rw [show findLeftFrom t x k (ncoef t k - 1) + 1 = ncoef t k from by omega]
      exact hx2
  have hlenL : findLeftFrom t x k (ncoef t k - 1) + 1 < t.length := by omega
  rw [show evalBase ⟨t, c, k⟩ x = ∑ j ∈ Finset.range (k + 1),
      Bp t (findLeftFrom t x k (ncoef t k - 1)) k
          (findLeftFrom t x k (ncoef t k - 1) - k + j) x •
        c.getD (findLeftFrom t x k (ncoef t k - 1) - k + j) 0 from rfl]
  rw [Finset.sum_congr rfl fun j hj => by
    rw [Bp_eq_naiveB ht hL3 hL4 hlenL k (findLeftFrom t x k (ncoef t k - 1) - k + j)
      (by simp only [Finset.mem_range] at hj; omega)]]
  refine window_eq_full c (fun m => naiveB x k m t) (ncoef t k)
    (findLeftFrom t x k (ncoef t k - 1)) k hL1 (by omega) ?_ ?_
  · intro m hm
    refine naiveB_zero_left ht k m (by omega) ?_
    exact le_trans (knot_mono ht (by omega) (by omega)) hL3
  · intro m hm1 hm2
    refine naiveB_zero_right ht k m (by omega) ?_
    exact lt_of_lt_of_le hL4 (knot_mono ht (by omega) (by omega))

/-- The naive reference evaluator returns the full naive sum, for x in the
half-open basic interval at which either x = t[k] or every knot equal to x
has multiplicity at most k. -/
theorem naiveEval_eq_full {V : Type} [AddCommGroup V] [Module ℚ V]
    (t : List ℚ) (c : List V) (k : ℕ) (x : ℚ) (ht : Nondecr t)
    (hn : k + 1 ≤ ncoef t k) (hm : MultOK t k)
    (hx1 : knot t k ≤ x) (hx2 : x < knot t (ncoef t k))
    (hcont : x = knot t k ∨
      ∀ j, j < t.length - k → knot t j = x → x < knot t (j + k)) :
    naiveEval x t c k
      = some (∑ m ∈ Finset.range (ncoef t k), naiveB x k m t • c.getD m 0) := by
  have hnd : ncoef t k = t.length - k - 1 := rfl
  have hlen : 2 * k + 2 ≤ t.length := by omega
  by_cases hxk : x = knot t k
  · rw [naiveEval]
    simp only [if_pos hxk]
    rw [if_pos (show (k : ℤ) ≤ (k : ℤ) ∧ (k : ℤ) + (k : ℕ) < t.length ∧
        knot t k ≤ x ∧ x ≤ knot t (k + 1) from
      ⟨le_refl _, by omega, hx1,
        hxk ▸ knot_mono ht (by omega) (by omega)⟩)]
    congr 1
    rw [sum_desc_eq_asc (fun m => naiveB x k m t • c.getD m 0) k k (le_refl k)]
    refine window_eq_full c (fun m => naiveB x k m t) (ncoef t k) k k
      (le_refl k) (by omega) (fun m hm => by omega) ?_
    intro m hm1 hm2
    refine naiveB_zero_edge ht k m (by omega) ?_ ?_
    · rw [hxk]
      exact knot_mono ht (by omega) (by omega)
    · have h1 : knot t k < knot t (k + k + 1) := hm k (by omega)
      have h2 : knot t (k + k + 1) ≤ knot t (m + k) :=
        knot_mono ht (by omega) (by omega)
      rw [hxk]
      exact lt_of_lt_of_le h1 h2
  · have hxk1 : knot t k < x := lt_of_le_of_ne hx1 fun h => hxk h.symm
    have hsle : searchsorted t x ≤ t.length := searchsorted_le_length t x
    have hsk : k + 1 ≤ searchsorted t x := by
      by_contra hcon
      have h1 := searchsorted_spec2 x t (by omega)
      have h2 : knot t (searchsorted t x) ≤ knot t k :=
        knot_mono ht (by omega) (by omega)
      exact absurd (le_trans h1 h2) (not_le.mpr hxk1)
    have hsn : searchsorted t x ≤ ncoef t k := by
      by_contra hcon
      have h1 := searchsorted_spec1 x t (ncoef t k) (by omega)
      exact absurd hx2 (not_lt.mpr (le_of_lt h1))
    have hknots : knot t (searchsorted t x - 1) < x :=
      searchsorted_spec1 x t (searchsorted t x - 1) (by omega)
    have hknots2 : x ≤ knot t (searchsorted t x) := searchsorted_spec2 x t (by omega)
    rw [naiveEval]
    simp only [if_neg hxk]
    rw [if_pos (show (k : ℤ) ≤ (searchsorted t x : ℤ) - 1 ∧
        (searchsorted t x : ℤ) - 1 + (k : ℕ) < t.length ∧
        knot t (searchsorted t x - 1) ≤ x ∧
        x ≤ knot t (searchsorted t x - 1 + 1) from
      ⟨by omega, by omega, le_of_lt hknots,
        by rw [show searchsorted t x - 1 + 1 = searchsorted t x from by omega]
           exact hknots2⟩)]
    congr 1
    rw [sum_desc_eq_asc (fun m => naiveB x k m t • c.getD m 0)
      (searchsorted t x - 1) k (by omega)]
    refine window_eq_full c (fun m => naiveB x k m t) (ncoef t k)
      (searchsorted t x - 1) k (by omega) (by omega) ?_ ?_
    · intro m hm
      refine naiveB_zero_left ht k m (by omega) ?_
      exact le_trans (knot_mono ht (by omega) (by omega)) (le_of_lt hknots)
    · intro m hm1 hm2
      have hxm : x ≤ knot t m :=
        le_trans hknots2 (knot_mono ht (by omega) (by omega))
      refine naiveB_zero_edge ht k m (by omega) hxm ?_
      rcases lt_or_eq_of_le hxm with h | h
      · exact lt_of_lt_of_le h (knot_mono ht (by omega) (by omega))
      · rcases hcont with hc | hc
        · exact absurd hc hxk
        · exact hc m (by omega) h.symm

/-! ## Partition of unity for the window basis values -/

/-- Telescoping partition of unity: as long as the designated interval has
positive length, the k+1 window basis values (polynomial pieces) sum to 1
at every x. -/
theorem Bp_partition {t : List ℚ} (ht : Nondecr t) {L : ℕ} (x : ℚ)
    (hstrad : knot t L < knot t (L + 1)) :
    ∀ d, d ≤ L → L + d + 1 < t.length →
      ∑ j ∈ Finset.range (d + 1), Bp t L d (L - d + j) x = 1 := by
  intro d
  induction d with
  | zero => intro _ _; simp [Bp]
  | succ d ih =>
      intro hdL hdlen
      have expand : ∀ j ∈ Finset.range (d + 2),
          Bp t L (d + 1) (L - (d + 1) + j) x
            = (if knot t (L - (d + 1) + j + d + 1) = knot t (L - (d + 1) + j) then 0
                else (x - knot t (L - (d + 1) + j)) /
                  (knot t (L - (d + 1) + j + d + 1) - knot t (L - (d + 1) + j)))
                * Bp t L d (L - (d + 1) + j) x
              + (if knot t (L - (d + 1) + j + d + 2) = knot t (L - (d + 1) + j + 1) then 0
                else (knot t (L - (d + 1) + j + d + 2) - x) /
                  (knot t (L - (d + 1) + j + d + 2) - knot t (L - (d + 1) + j + 1)))
                  * Bp t L d (L - (d + 1) + j + 1) x := by
        intro j _
        rw [Bp]
      rw [Finset.sum_congr rfl expand, Finset.sum_add_distrib]
      rw [Finset.sum_range_succ']
      rw [show Bp t L d (L - (d + 1) + 0) x = 0 from
        Bp_zero_outside t L x d _ (by omega), mul_zero, add_zero]
      nth_rewrite 2 [Finset.sum_range_succ]
      rw [show Bp t L d (L - (d + 1) + (d + 1) + 1) x = 0 from
        Bp_zero_outside t L x d _ (by omega), mul_zero, add_zero]
      rw [← Finset.sum_add_distrib]
      have combine : ∀ j ∈ Finset.range (d + 1),
          ((if knot t (L - (d + 1) + (j + 1) + d + 1) = knot t (L - (d + 1) + (j + 1)) then 0
              else (x - knot t (L - (d + 1) + (j + 1))) /
                (knot t (L - (d + 1) + (j + 1) + d + 1) - knot t (L - (d + 1) + (j + 1))))
              * Bp t L d (L - (d + 1) + (j + 1)) x
            + (if knot t (L - (d + 1) + j + d + 2) = knot t (L - (d + 1) + j + 1) then 0
              else (knot t (L - (d + 1) + j + d + 2) - x) /
                (knot t (L - (d + 1) + j + d + 2) - knot t (L - (d + 1) + j + 1)))
                * Bp t L d (L - (d + 1) + j + 1) x)
            = Bp t L d (L - d + j) x := by
        intro j hj
        simp only [Finset.mem_range] at hj
        have e1 : L - (d + 1) + (j + 1) = L - d + j := by omega
        have e2 : L - d + j + d + 1 = L + j + 1 := by omega
        have e3 : L - (d + 1) + j + d + 2 = L + j + 1 := by omega
        have e4 : L - (d + 1) + j + 1 = L - d + j := by omega
        rw [e1, e2, e3, e4]
        have hne : knot t (L - d + j) < knot t (L + j + 1) := by
          calc knot t (L - d + j) ≤ knot t L := knot_mono ht (by omega) (by omega)
            _ < knot t (L + 1) := hstrad
            _ ≤ knot t (L + j + 1) := knot_mono ht (by omega) (by omega)
        rw [if_neg (by exact fun h => absurd h (ne_of_gt hne)),
          if_neg (by exact fun h => absurd h (ne_of_gt hne))]
        rw [← add_mul, div_add_div_same]
        rw [show x - knot t (L - d + j) + (knot t (L + j + 1) - x)
            = knot t (L + j + 1) - knot t (L - d + j) from by ring]
        rw [div_self (ne_of_gt (by linarith)), one_mul]
      rw [Finset.sum_congr rfl combine]
      exact ih (by omega) (by omega)

/-! ## Round-trip machinery: antiderivative followed by derivative -/

/-- Evaluation only reads the first n coefficients, so splines with the
same knots and degree whose coefficients agree below n evaluate equally. -/
theorem evalBase_congr_c {V : Type} [AddCommGroup V] [Module ℚ V]
    (t : List ℚ) (c1 c2 : List V) (k : ℕ) (x : ℚ) (hn : k + 1 ≤ ncoef t k)
    (hagree : ∀ m, m < ncoef t k → c1.getD m 0 = c2.getD m 0) :
    evalBase ⟨t, c1, k⟩ x = evalBase ⟨t, c2, k⟩ x := by
  have hL2 : findLeftFrom t x k (ncoef t k - 1) ≤ ncoef t k - 1 :=
    le_trans (findLeftFrom_le t x k _) (max_le (by omega) (le_refl _))
  show (∑ j ∈ Finset.range (k + 1), Bp t (findLeft t k x) k (findLeft t k x - k + j) x •
      c1.getD (findLeft t k x - k + j) 0)
    = ∑ j ∈ Finset.range (k + 1), Bp t (findLeft t k x) k (findLeft t k x - k + j) x •
      c2.getD (findLeft t k x - k + j) 0
  refine Finset.sum_congr rfl fun j hj => ?_
  simp only [Finset.mem_range] at hj
  rw [hagree _ (by
    have h1 : findLeft t k x = findLeftFrom t x k (ncoef t k - 1) := rfl
    omega)]

theorem antider_t_length {V : Type} [AddCommGroup V] [Module ℚ V] (b : BSpline V) :
    (antiderivative b).t.length = b.t.length + 2 := by
  simp [antiderivative]

theorem deriv_antider_t {V : Type} [AddCommGroup V] [Module ℚ V] (b : BSpline V) :
    (derivative (antiderivative b)).t = b.t := by
  show ((knot b.t 0 :: b.t ++ [knot b.t (b.t.length - 1)]).drop 1).dropLast = b.t
  simp

theorem deriv_antider_k {V : Type} [AddCommGroup V] [Module ℚ V] (b : BSpline V) :
    (derivative (antiderivative b)).k = b.k := rfl

theorem knot_antider_succ {V : Type} [AddCommGroup V] [Module ℚ V]
    (b : BSpline V) (i : ℕ) (h : i < b.t.length) :
    knot (antiderivative b).t (i + 1) = knot b.t i := by
  show (b.t ++ [knot b.t (b.t.length - 1)]).getD i 0 = knot b.t i
  rw [List.getD_append _ _ _ _ h]
  rfl

theorem acoef_succ_sub {V : Type} [AddCommGroup V] [Module ℚ V]
    (b : BSpline V) (i : ℕ) :
    acoef b (i + 1) - acoef b i
      = ((knot b.t (i + b.k + 1) - knot b.t i) / (b.k + 1 : ℚ)) • b.c.getD i 0 := by
  rw [acoef]
  abel

theorem deriv_antider_c_getD {V : Type} [AddCommGroup V] [Module ℚ V]
    (b : BSpline V) (hm : MultOK b.t b.k)
    (i : ℕ) (hi : i < ncoef b.t b.k) :
    (derivative (antiderivative b)).c.getD i 0 = b.c.getD i 0 := by
  have hnd : ncoef b.t b.k = b.t.length - b.k - 1 := rfl
  have hlen : b.k + 2 ≤ b.t.length := by omega
  have hrange : ncoef (antiderivative b).t (antiderivative b).k - 1 = ncoef b.t b.k := by
    show ncoef (antiderivative b).t (b.k + 1) - 1 = ncoef b.t b.k
    rw [ncoef, antider_t_length]
    omega
  show (((List.range (ncoef (antiderivative b).t (antiderivative b).k - 1)).map fun i =>
      if knot (antiderivative b).t (i + (antiderivative b).k + 1)
          = knot (antiderivative b).t (i + 1) then 0
      else (((antiderivative b).k : ℚ) /
          (knot (antiderivative b).t (i + (antiderivative b).k + 1)
            - knot (antiderivative b).t (i + 1))) •
        ((antiderivative b).c.getD (i + 1) 0 - (antiderivative b).c.getD i 0)).getD i 0)
    = b.c.getD i 0
  rw [hrange, getD_map_range _ _ hi]
  have hk1 : knot (antiderivative b).t (i + (antiderivative b).k + 1)
      = knot b.t (i + b.k + 1) := by
    show knot (antiderivative b).t (i + (b.k + 1) + 1) = knot b.t (i + b.k + 1)
    rw [show i + (b.k + 1) + 1 = (i + b.k + 1) + 1 from by omega]
    exact knot_antider_succ b _ (by omega)
  have hk2 : knot (antiderivative b).t (i + 1) = knot b.t i :=
    knot_antider_succ b i (by omega)
  have hc1 : (antiderivative b).c.getD (i + 1) 0 = acoef b (i + 1) := by
    show ((List.range (ncoef b.t b.k + 1)).map (acoef b)).getD (i + 1) 0 = acoef b (i + 1)
    exact getD_map_range _ _ (by omega)
  have hc2 : (antiderivative b).c.getD i 0 = acoef b i := by
    show ((List.range (ncoef b.t b.k + 1)).map (acoef b)).getD i 0 = acoef b i
    exact getD_map_range _ _ (by omega)
  rw [hk1, hk2, hc1, hc2, acoef_succ_sub]
  have hpos : knot b.t i < knot b.t (i + b.k + 1) := hm i (by omega)
  rw [if_neg (by exact fun h => absurd h (ne_of_gt hpos))]
  rw [smul_smul]
  have hkq : ((antiderivative b).k : ℚ) = (b.k : ℚ) + 1 := by
    show (((b.k + 1 : ℕ)) : ℚ) = (b.k : ℚ) + 1
    push_cast
    ring
  rw [hkq]
  have hD : knot b.t (i + b.k + 1) - knot b.t i ≠ 0 := by
    intro h; linarith
  have hK : ((b.k : ℚ) + 1) ≠ 0 := by positivity
  rw [show ((b.k : ℚ) + 1) / (knot b.t (i + b.k + 1) - knot b.t i) *
      ((knot b.t (i + b.k + 1) - knot b.t i) / ((b.k : ℚ) + 1)) = 1 from by
    field_simp]
  rw [one_smul]

/-- Evaluation congruence for splines with equal knots and degree and
coefficients agreeing below n. -/
theorem evalBase_congr {V : Type} [AddCommGroup V] [Module ℚ V]
    (s b : BSpline V) (x : ℚ) (hts : s.t = b.t) (hks : s.k = b.k)
    (hn : b.k + 1 ≤ ncoef b.t b.k)
    (hagree : ∀ m, m < ncoef b.t b.k → s.c.getD m 0 = b.c.getD m 0) :
    evalBase s x = evalBase b x := by
  obtain ⟨st, sc, sk⟩ := s
  obtain ⟨bt, bc, bk⟩ := b
  simp only at hts hks hagree hn ⊢
  subst hts
  subst hks
  exact evalBase_congr_c st sc bc sk x hn hagree

/-! ## The claims -/

/-- C1, counterexample: for the valid spline with knots [0, 1/2, 1, 1, 2, 3]
(interior knot 1 of multiplicity k+1 = 2), coefficients [0, 0, 1, 0] and
degree 1, at the basic-interval point x = 1 the production evaluator
returns 1 (the right-continuous value, using the interval [t[3], t[4]])
while the naive reference evaluator returns 0 (its searchsorted window
[t[1], t[2]] misses the jump), so point evaluation does not agree with the
naive recursive reference evaluator at every point of the basic interval. -/
theorem C1_counterexample :
    naiveEval (V := ℚ) 1 [0, 1/2, 1, 1, 2, 3] [0, 0, 1, 0] 1 = some 0 ∧
    evaluate (⟨[0, 1/2, 1, 1, 2, 3], [0, 0, 1, 0], 1⟩ : BSpline ℚ) 1 0 = 1 ∧
    naiveEval (V := ℚ) 1 [0, 1/2, 1, 1, 2, 3] [0, 0, 1, 0] 1
      ≠ some (evaluate (⟨[0, 1/2, 1, 1, 2, 3], [0, 0, 1, 0], 1⟩ : BSpline ℚ) 1 0) := by
  refine ⟨by decide, by decide, by decide⟩

/-- C1 (amended): for every valid spline (nondecreasing knots, knot
multiplicity at most k+1, at least k+1 coefficients available) and every
query point x with t[k] <= x < t[n] such that either x = t[k] or every
knot equal to x has multiplicity at most k (the spline is continuous
at x), point evaluation with nu = 0 agrees with the naive recursive
reference evaluator (which returns sum_j c[left-k+j] * B(x) over its
located window); at x = t[n] and at interior knots of multiplicity k+1 the
two can differ, as the counterexample shows. -/
theorem C1_eval_agrees_naive {V : Type} [AddCommGroup V] [Module ℚ V]
    (t : List ℚ) (c : List V) (k : ℕ) (x : ℚ)
    (ht : Nondecr t) (hn : k + 1 ≤ ncoef t k) (hm : MultOK t k)
    (hx1 : knot t k ≤ x) (hx2 : x < knot t (ncoef t k))
    (hcont : x = knot t k ∨
      ∀ j, j < t.length - k → knot t j = x → x < knot t (j + k)) :
    naiveEval x t c k = some (evaluate ⟨t, c, k⟩ x 0) := by
  rw [naiveEval_eq_full t c k x ht hn hm hx1 hx2 hcont]
  rw [show evaluate ⟨t, c, k⟩ x 0 = evalBase ⟨t, c, k⟩ x from rfl]
  rw [evalBase_eq_full t c k x ht hn hx1 hx2]

/-- Witness for C1 (amended) at the spline (t, c, k) = ([0,1,2,3], [1,2], 1)
and x = 3/2. -/
theorem C1_eval_agrees_naive_witness :
    (Nondecr [0, 1, 2, 3] ∧ 1 + 1 ≤ ncoef [0, 1, 2, 3] 1 ∧ MultOK [0, 1, 2, 3] 1 ∧
      knot [0, 1, 2, 3] 1 ≤ 3/2 ∧ (3/2 : ℚ) < knot [0, 1, 2, 3] (ncoef [0, 1, 2, 3] 1) ∧
      ((3/2 : ℚ) = knot [0, 1, 2, 3] 1 ∨
        ∀ j, j < ([0, 1, 2, 3] : List ℚ).length - 1 → knot [0, 1, 2, 3] j = 3/2 →
          (3/2 : ℚ) < knot [0, 1, 2, 3] (j + 1))) ∧
    naiveEval (V := ℚ) (3/2) [0, 1, 2, 3] [1, 2] 1
      = some (evaluate (⟨[0, 1, 2, 3], [1, 2], 1⟩ : BSpline ℚ) (3/2) 0) :=
  ⟨⟨by decide, by decide, by decide, by decide, by decide, by decide⟩,
    C1_eval_agrees_naive [0, 1, 2, 3] [1, 2] 1 (3/2) (by decide) (by decide)
      (by decide) (by decide) (by decide) (by decide)⟩

/-- C3: antiderivative followed by derivative reproduces the original
spline's evaluation exactly, at every point (in particular across the
basic interval), for every valid spline with coefficients in any rational
vector space V (covering coefficient arrays with trailing dimensions). -/
theorem C3_antiderivative_derivative_roundtrip {V : Type} [AddCommGroup V] [Module ℚ V]
    (b : BSpline V) (hn : b.k + 1 ≤ ncoef b.t b.k) (hm : MultOK b.t b.k) (x : ℚ) :
    evaluate (derivative (antiderivative b)) x 0 = evaluate b x 0 := by
  show evalBase (derivative (antiderivative b)) x = evalBase b x
  exact evalBase_congr (derivative (antiderivative b)) b x
    (deriv_antider_t b) (deriv_antider_k b) hn
    (fun m hm2 => deriv_antider_c_getD b hm m hm2)

/-- Witness for C3 at the spline ([0,1,2,3], [5,7], 1) and x = 1/2. -/
theorem C3_antiderivative_derivative_roundtrip_witness :
    ((⟨[0, 1, 2, 3], [5, 7], 1⟩ : BSpline ℚ).k + 1
        ≤ ncoef (⟨[0, 1, 2, 3], [5, 7], 1⟩ : BSpline ℚ).t
            (⟨[0, 1, 2, 3], [5, 7], 1⟩ : BSpline ℚ).k ∧
      MultOK (⟨[0, 1, 2, 3], [5, 7], 1⟩ : BSpline ℚ).t
        (⟨[0, 1, 2, 3], [5, 7], 1⟩ : BSpline ℚ).k) ∧
    evaluate (derivative (antiderivative (⟨[0, 1, 2, 3], [5, 7], 1⟩ : BSpline ℚ))) (1/2) 0
      = evaluate (⟨[0, 1, 2, 3], [5, 7], 1⟩ : BSpline ℚ) (1/2) 0 :=
  ⟨⟨by decide, by decide⟩,
    C3_antiderivative_derivative_roundtrip (⟨[0, 1, 2, 3], [5, 7], 1⟩ : BSpline ℚ)
      (by decide) (by decide) (1/2)⟩

/-- C4: for every spline of degree k (valid ones included) and every query
point x, evaluating with derivative order nu = k+1 yields exactly 0. -/
theorem C4_high_order_derivative_zero {V : Type} [AddCommGroup V] [Module ℚ V]
    (b : BSpline V) (x : ℚ) : evaluate b x (b.k + 1) = 0 := by
  suffices h : ∀ K (b : BSpline V), b.k = K → evaluate b x (K + 1) = 0 from
    h b.k b rfl
  intro K
  induction K with
  | zero =>
      intro b hb
      rw [evaluate, if_pos hb]
  | succ K ih =>
      intro b hb
      rw [evaluate, if_neg (by omega)]
      exact ih (derivative b) (by rw [show (derivative b).k = b.k - 1 from rfl]; omega)

/-- C9: appending arbitrary extra trailing coefficients beyond n does not
change evaluation at any point, inside or outside the basic interval. -/
theorem C9_extra_coefficients_ignored {V : Type} [AddCommGroup V] [Module ℚ V]
    (t : List ℚ) (c extra : List V) (k : ℕ) (x : ℚ)
    (hn : k + 1 ≤ ncoef t k) (hc : ncoef t k ≤ c.length) :
    evaluate ⟨t, c ++ extra, k⟩ x 0 = evaluate ⟨t, c, k⟩ x 0 := by
  show evalBase ⟨t, c ++ extra, k⟩ x = evalBase ⟨t, c, k⟩ x
  exact evalBase_congr_c t (c ++ extra) c k x hn fun m hm =>
    List.getD_append _ _ _ _ (by omega)

/-- Witness for C9 at t = [0,1,2,3], c = [5,7], extra = [9], k = 1, and the
extrapolation point x = 5. -/
theorem C9_extra_coefficients_ignored_witness :
    (1 + 1 ≤ ncoef [0, 1, 2, 3] 1 ∧ ncoef [0, 1, 2, 3] 1 ≤ ([5, 7] : List ℚ).length) ∧
    evaluate (⟨[0, 1, 2, 3], [5, 7] ++ [9], 1⟩ : BSpline ℚ) 5 0
      = evaluate (⟨[0, 1, 2, 3], [5, 7], 1⟩ : BSpline ℚ) 5 0 :=
  ⟨⟨by decide, by decide⟩,
    C9_extra_coefficients_ignored [0, 1, 2, 3] [5, 7] [9] 1 5 (by decide) (by decide)⟩

/-- C2, counterexample: the claim's knot vector t = [0, 1, 2, 3] with
degree k = 3 does not admit a spline at all: construction is rejected
(4 knots cannot support a cubic, which needs at least 2(k+1) = 8), and the
raw unvalidated object does not match the Bernstein polynomial either
(already at x = 1/2). -/
theorem C2_counterexample :
    isErr (mkBSpline (V := ℚ)
        [Ext.fin 0, Ext.fin 1, Ext.fin 2, Ext.fin 3] [1, 2, 3, 4] 3) = true ∧
    evaluate (⟨[0, 1, 2, 3], [1, 2, 3, 4], 3⟩ : BSpline ℚ) (1/2) 0
      ≠ bernsteinEval [1, 2, 3, 4] (1/2) := by
  refine ⟨by decide, by decide⟩

/-- C2 (amended): for the Bernstein knot vector t = [0,0,0,0,1,1,1,1]
(each of 0 and 1 with multiplicity k+1 = 4), degree k = 3 and coefficients
c = [1,2,3,4], evaluation with extrapolation at each of the points
-1, 0, 1/2, 1, 3/2, 2 equals the Bernstein-basis polynomial with
coefficients [1,2,3,4] on [0,1] exactly (hence within 1e-14). -/
theorem C2_bernstein :
    evaluate (⟨[0, 0, 0, 0, 1, 1, 1, 1], [1, 2, 3, 4], 3⟩ : BSpline ℚ) (-1) 0
        = bernsteinEval [1, 2, 3, 4] (-1) ∧
    evaluate (⟨[0, 0, 0, 0, 1, 1, 1, 1], [1, 2, 3, 4], 3⟩ : BSpline ℚ) 0 0
        = bernsteinEval [1, 2, 3, 4] 0 ∧
    evaluate (⟨[0, 0, 0, 0, 1, 1, 1, 1], [1, 2, 3, 4], 3⟩ : BSpline ℚ) (1/2) 0
        = bernsteinEval [1, 2, 3, 4] (1/2) ∧
    evaluate (⟨[0, 0, 0, 0, 1, 1, 1, 1], [1, 2, 3, 4], 3⟩ : BSpline ℚ) 1 0
        = bernsteinEval [1, 2, 3, 4] 1 ∧
    evaluate (⟨[0, 0, 0, 0, 1, 1, 1, 1], [1, 2, 3, 4], 3⟩ : BSpline ℚ) (3/2) 0
        = bernsteinEval [1, 2, 3, 4] (3/2) ∧
    evaluate (⟨[0, 0, 0, 0, 1, 1, 1, 1], [1, 2, 3, 4], 3⟩ : BSpline ℚ) 2 0
        = bernsteinEval [1, 2, 3, 4] 2 := by
  refine ⟨by decide, by decide, by decide, by decide, by decide, by decide⟩

/-- C5: the definite integral is antisymmetric in its bounds,
integrate(a, b) = -integrate(b, a), for every spline, all rational bounds
and either value of the extrapolate flag; and the degree-1 basis element
on knots [0, 1, 2] has integrate(0, 1) = 1/2 and integrate(1, 0) = -1/2. -/
theorem C5_integrate_antisymmetric {V : Type} [AddCommGroup V] [Module ℚ V] :
    (∀ (b : BSpline V) (lo hi : ℚ) (e : Bool),
      integrate b lo hi e = - integrate b hi lo e) ∧
    integrate (basisElement [0, 1, 2]) 0 1 true = 1/2 ∧
    integrate (basisElement [0, 1, 2]) 1 0 true = -(1/2) := by
  refine ⟨fun b lo hi e => ?_, by decide, by decide⟩
  cases e <;> simp [integrate, neg_sub]

/-- C6: construction fails with a validation error, and no spline object
is produced, whenever the raw knot entries contain a non-finite or complex
value, or the knots decrease somewhere, or fewer than n = len(t)-k-1
coefficients are supplied, or the degree is not a non-negative integer, or
the basic interval [t[k], t[n]] has zero measure.  (Multi-dimensional knot
input is excluded by the embedded input type itself.)  The Except result
models that no partial object escapes: a failing construction returns only
the error. -/
theorem C6_ctor_validation {V : Type} (tIn : List Ext) (c : List V) (kIn : ℚ) :
    ((¬ ∀ e ∈ tIn, e.isFin = true) ∨
      (¬ ∀ i, i < tIn.length - 1 →
        knot (tIn.map Ext.val) i ≤ knot (tIn.map Ext.val) (i + 1)) ∨
      ((c.length : ℚ) < (tIn.length : ℚ) - kIn - 1) ∨
      (kIn.den ≠ 1 ∨ kIn < 0) ∨
      (¬ knot (tIn.map Ext.val) kIn.num.toNat <
        knot (tIn.map Ext.val) (tIn.length - kIn.num.toNat - 1))) →
    isErr (mkBSpline tIn c kIn) = true := by
  intro hbad
  rw [mkBSpline]
  split_ifs with h1 h2 h3 h4 h5
  · exfalso
    rcases hbad with h | h | h | h | h
    · exact h h1
    · exact h h2
    · exact absurd h3.2.2 (not_le.mpr h)
    · rcases h with h | h
      · exact h h4.1
      · exact absurd h4.2 (not_le.mpr h)
    · exact h h5
  all_goals rfl

/-- Witness for C6 at the decreasing knot vector t = [1, -1] with c = [1]
and degree 0. -/
theorem C6_ctor_validation_witness :
    ((¬ ∀ e ∈ [Ext.fin 1, Ext.fin (-1)], e.isFin = true) ∨
      (¬ ∀ i, i < ([Ext.fin 1, Ext.fin (-1)] : List Ext).length - 1 →
        knot ([Ext.fin 1, Ext.fin (-1)].map Ext.val) i
          ≤ knot ([Ext.fin 1, Ext.fin (-1)].map Ext.val) (i + 1)) ∨
      ((([1] : List ℚ).length : ℚ)
        < (([Ext.fin 1, Ext.fin (-1)] : List Ext).length : ℚ) - 0 - 1) ∨
      ((0 : ℚ).den ≠ 1 ∨ (0 : ℚ) < 0) ∨
      (¬ knot ([Ext.fin 1, Ext.fin (-1)].map Ext.val) (0 : ℚ).num.toNat <
        knot ([Ext.fin 1, Ext.fin (-1)].map Ext.val)
          (([Ext.fin 1, Ext.fin (-1)] : List Ext).length - (0 : ℚ).num.toNat - 1))) ∧
    isErr (mkBSpline (V := ℚ) [Ext.fin 1, Ext.fin (-1)] [1] 0) = true :=
  ⟨by decide, C6_ctor_validation [Ext.fin 1, Ext.fin (-1)] [1] 0 (by decide)⟩

/-- C7: the legacy tuple view: indexing with 0, 1, 2 returns the knot
vector, the coefficients and the degree, the negative indices -3, -2, -1
return the same components, and every other integer index is an
out-of-range error. -/
theorem C7_tuple_indexing {V : Type} (b : BSpline V) :
    tupleGet b 0 = .ok (.knots b.t) ∧
    tupleGet b 1 = .ok (.coeffs b.c) ∧
    tupleGet b 2 = .ok (.degree b.k) ∧
    tupleGet b (-3) = .ok (.knots b.t) ∧
    tupleGet b (-2) = .ok (.coeffs b.c) ∧
    tupleGet b (-1) = .ok (.degree b.k) ∧
    ∀ i : ℤ, (2 < i ∨ i < -3) → isErr (tupleGet b i) = true := by
  refine ⟨rfl, rfl, rfl, rfl, rfl, rfl, fun i hi => ?_⟩
  rw [tupleGet]
  by_cases hneg : i < 0
  · simp only [if_pos hneg]
    rw [if_neg (by omega), if_neg (by omega), if_neg (by omega)]
    rfl
  · simp only [if_neg hneg]
    rw [if_neg (by omega), if_neg (by omega), if_neg (by omega)]
    rfl

/-- Witness for C7 at the spline ([0, 1], [5], 0) and the out-of-range
indices 3 and -4. -/
theorem C7_tuple_indexing_witness :
    ((2 < (3 : ℤ) ∨ (3 : ℤ) < -3) ∧ (2 < (-4 : ℤ) ∨ (-4 : ℤ) < -3)) ∧
    isErr (tupleGet (⟨[0, 1], [5], 0⟩ : BSpline ℚ) 3) = true ∧
    isErr (tupleGet (⟨[0, 1], [5], 0⟩ : BSpline ℚ) (-4)) = true :=
  ⟨⟨by decide, by decide⟩,
    (C7_tuple_indexing (⟨[0, 1], [5], 0⟩ : BSpline ℚ)).2.2.2.2.2.2 3 (by decide),
    (C7_tuple_indexing (⟨[0, 1], [5], 0⟩ : BSpline ℚ)).2.2.2.2.2.2 (-4) (by decide)⟩

/-- C10, counterexample: for the valid spline with knots [0, 1, 2, 2, 3]
(right end of the basic interval t[n] = 2 a knot of multiplicity
k+1 = 2), degree 1 and all coefficients equal to 1, evaluation at the
basic-interval endpoint x = t[n] = 2 yields 0, not 1. -/
theorem C10_counterexample :
    evaluate (⟨[0, 1, 2, 2, 3], [1, 1, 1], 1⟩ : BSpline ℚ) 2 0 = 0 ∧
    evaluate (⟨[0, 1, 2, 2, 3], [1, 1, 1], 1⟩ : BSpline ℚ) 2 0 ≠ 1 := by
  refine ⟨by decide, by decide⟩

/-- C10 (amended): for every valid knot vector and degree, the spline
whose first n coefficients are all 1 evaluates to exactly 1 at every
point x of [t[k], t[n]), and at x = t[n] as well provided
t[n-1] < t[n]; at a right endpoint with t[n-1] = t[n] the value can
differ from 1, as the counterexample shows (partition of unity of the
nonzero basis functions). -/
theorem C10_partition_of_unity (t : List ℚ) (c : List ℚ) (k : ℕ) (x : ℚ)
    (ht : Nondecr t) (hn : k + 1 ≤ ncoef t k)
    (hc : ∀ m, m < ncoef t k → c.getD m 0 = 1)
    (hx1 : knot t k ≤ x)
    (hx2 : x < knot t (ncoef t k) ∨
      (x = knot t (ncoef t k) ∧ knot t (ncoef t k - 1) < knot t (ncoef t k))) :
    evaluate ⟨t, c, k⟩ x 0 = 1 := by
  have hnd : ncoef t k = t.length - k - 1 := rfl
  have hlen : 2 * k + 2 ≤ t.length := by omega
  have hL1 : k ≤ findLeftFrom t x k (ncoef t k - 1) := findLeftFrom_ge t x k _
  have hL2 : findLeftFrom t x k (ncoef t k - 1) ≤ ncoef t k - 1 :=
    le_trans (findLeftFrom_le t x k _) (max_le (by omega) (le_refl _))
  have hstrad : knot t (findLeftFrom t x k (ncoef t k - 1))
      < knot t (findLeftFrom t x k (ncoef t k - 1) + 1) := by
    rcases hx2 with hx2 | ⟨hxe, hlast⟩
    · have hL3 : knot t (findLeftFrom t x k (ncoef t k - 1)) ≤ x :=
        findLeftFrom_knot_le t x k hx1 _
      have hL4 : x < knot t (findLeftFrom t x k (ncoef t k - 1) + 1) := by
        rcases Nat.lt_or_ge (findLeftFrom t x k (ncoef t k - 1)) (ncoef t k - 1) with h | h
        · exact findLeftFrom_gt t x k (ncoef t k - 1) _ (by omega) (by omega)
        · rw [show findLeftFrom t x k (ncoef t k - 1) + 1 = ncoef t k from by omega]
          exact hx2
      exact lt_of_le_of_lt hL3 hL4
    · have hFL : findLeftFrom t x k (ncoef t k - 1) = ncoef t k - 1 :=
        findLeftFrom_eq_top t x k (ncoef t k - 1) (by omega)
          (by rw [hxe]; exact le_of_lt hlast)
      rw [hFL, show ncoef t k - 1 + 1 = ncoef t k from by omega]
      exact hlast
  show evalBase ⟨t, c, k⟩ x = 1
  rw [show evalBase ⟨t, c, k⟩ x = ∑ j ∈ Finset.range (k + 1),
      Bp t (findLeftFrom t x k (ncoef t k - 1)) k
          (findLeftFrom t x k (ncoef t k - 1) - k + j) x •
        c.getD (findLeftFrom t x k (ncoef t k - 1) - k + j) 0 from rfl]
  rw [Finset.sum_congr rfl fun j hj => by
    rw [hc (findLeftFrom t x k (ncoef t k - 1) - k + j)
      (by simp only [Finset.mem_range] at hj; omega)]]
  rw [Finset.sum_congr rfl fun j _ => smul_eq_mul (α := ℚ) ▸ mul_one _]
  exact Bp_partition ht x hstrad k hL1 (by omega)

/-- Witness for C10 (amended) at t = [0, 1, 2, 3], k = 1, c = [1, 1],
x = 3/2. -/
theorem C10_partition_of_unity_witness :
    (Nondecr [0, 1, 2, 3] ∧ 1 + 1 ≤ ncoef [0, 1, 2, 3] 1 ∧
      (∀ m, m < ncoef [0, 1, 2, 3] 1 → ([1, 1] : List ℚ).getD m 0 = 1) ∧
      knot [0, 1, 2, 3] 1 ≤ 3/2 ∧
      ((3/2 : ℚ) < knot [0, 1, 2, 3] (ncoef [0, 1, 2, 3] 1) ∨
        ((3/2 : ℚ) = knot [0, 1, 2, 3] (ncoef [0, 1, 2, 3] 1) ∧
          knot [0, 1, 2, 3] (ncoef [0, 1, 2, 3] 1 - 1)
            < knot [0, 1, 2, 3] (ncoef [0, 1, 2, 3] 1)))) ∧
    evaluate (⟨[0, 1, 2, 3], [1, 1], 1⟩ : BSpline ℚ) (3/2) 0 = 1 :=
  ⟨⟨by decide, by decide, by decide, by decide, by decide⟩,
    C10_partition_of_unity [0, 1, 2, 3] [1, 1] 1 (3/2) (by decide) (by decide)
      (by decide) (by decide) (by decide)⟩

end BSplineSpec
